import Mathlib

/-!
Verification of the bullet-trade market-data provider and simulated broker.

The market-data provider (schema normalizer, adjustment engine, cache/download
manager, temporal guard, provider facade) is exercised by the repository's
tests but its implementation modules (`bullet_trade/data/providers/miniqmt.py`,
`bullet_trade/core/exceptions.py`, the data API facade) are not part of the
source tree available here; those components are modelled from the
specification (`spec.md`), as marked on each definition.  The simulated broker
(`bullet_trade/broker/simulator.py`) is embedded directly from its source.

Conventions: prices and cash are embedded as rationals (`ℚ`), dates as natural
numbers (e.g. `20250612` for 2025-06-12), intraday instants as
(trading-day, minute) pairs.  Python dicts become association lists, raised
exceptions become explicit error results.
-/

namespace BulletTrade

/-- Association-list lookup (embeds Python `dict.get` on the keyed stores). -/
def alookup {κ β : Type} [DecidableEq κ] (k : κ) : List (κ × β) → Option β
  | [] => Option.none
  | (k', v) :: rest => if k' = k then some v else alookup k rest

/-- Association-list update (embeds Python `dict.__setitem__`): replaces the
value of an existing key in place, otherwise appends the new binding. -/
def aupdate {κ β : Type} [DecidableEq κ] (k : κ) (v : β) : List (κ × β) → List (κ × β)
  | [] => [(k, v)]
  | (k', v') :: rest => if k' = k then (k, v) :: rest else (k', v') :: aupdate k v rest

/-- Round a rational to the nearest integer, ties to even (numpy/pandas
`round` semantics used by the reference frames in the tests). -/
def roundHalfEven (x : ℚ) : ℤ :=
  if x - ⌊x⌋ = 1/2 then (if ⌊x⌋ % 2 = 0 then ⌊x⌋ else ⌊x⌋ + 1) else round x

/-- Round a price to 2 decimal places (currency-minor-unit precision),
spec §4.3 "Rounding". -/
def round2 (x : ℚ) : ℚ := (roundHalfEven (x * 100) : ℚ) / 100

/-- Modelled from the spec (§3 Data Model): a canonical daily bar.  The field
`open` is written `open_` because `open` is a Lean keyword. -/
structure Bar where
  date : ℕ
  open_ : ℚ
  high : ℚ
  low : ℚ
  close : ℚ
  volume : ℚ
  money : ℚ
  deriving Repr, DecidableEq

/-- Modelled from the spec (§3 Data Model): a normalized corporate-action
event.  Quantities are stated per `per_base` shares (the normalizer's fixed
base, "per 10 shares"); the field names follow the repository's test comments
(`bonus_pre_tax`, `per_base`). -/
structure DividendEvent where
  ex_date : ℕ
  bonus_pre_tax : ℚ
  per_base : ℚ
  stock_gift : ℚ
  stock_bonus : ℚ
  allot_num : ℚ
  deriving Repr, DecidableEq

/-- Cash dividend per single share of a normalized event. -/
def cashPerShare (e : DividendEvent) : ℚ := e.bonus_pre_tax / e.per_base

/-- Vendor-native (QMT) dividend record: `interest` is the cash dividend per
1 share (format of `get_divid_factors` rows in the tests). -/
structure QmtDividend where
  time : ℕ
  interest : ℚ
  stockGift : ℚ
  stockBonus : ℚ
  allotNum : ℚ
  deriving Repr, DecidableEq

/-- Modelled from the spec (§3): the normalizer rescales vendor per-1-share
dividend quantities to the fixed "per 10 shares" base before use. -/
def normalizeQmtDividend (v : QmtDividend) : DividendEvent :=
  { ex_date := v.time
    bonus_pre_tax := v.interest * 10
    per_base := 10
    stock_gift := v.stockGift * 10
    stock_bonus := v.stockBonus * 10
    allot_num := v.allotNum * 10 }

/-- Modelled from the spec (§4.3): close of the trading day immediately before
`d`, i.e. the close of the last bar dated strictly before `d` (bars are
chronological per the §3 invariant). -/
def preclose (bars : List Bar) (d : ℕ) : Option ℚ :=
  ((bars.filter (fun b => decide (b.date < d))).getLast?).map Bar.close

/-- Modelled from the spec (§4.3): per-event front-adjustment factor
`(preclose - cash_dividend_per_share) / preclose`; events with no bar before
their ex-date contribute a factor of 1. -/
def eventFactor (bars : List Bar) (e : DividendEvent) : ℚ :=
  match preclose bars e.ex_date with
  | Option.none => 1
  | some p => (p - cashPerShare e) / p

/-- Modelled from the spec (§4.3): an event qualifies for front adjustment of
bar date `d` when its ex-date is on or before the reference date, strictly
after `d` (adjustment only looks backward from each event), and strictly after
the earliest bar date (equivalently: a preclose exists). -/
def frontQualifies (bars : List Bar) (refDate d : ℕ) (e : DividendEvent) : Bool :=
  decide (e.ex_date ≤ refDate ∧ d < e.ex_date ∧ (preclose bars e.ex_date).isSome)

/-- Modelled from the spec (§4.3, mode `front`): scale the price fields of one
bar by the cumulative factor of all qualifying events, then round to 2 decimal
places; bars with no qualifying event are returned untouched (and in
particular not rounded).  `volume`/`money` are never modified. -/
def adjustBarFront (bars : List Bar) (events : List DividendEvent) (refDate : ℕ)
    (b : Bar) : Bar :=
  let qs := events.filter (frontQualifies bars refDate b.date)
  if qs.isEmpty then b
  else
    let f := qs.foldr (fun e acc => eventFactor bars e * acc) 1
    { b with open_ := round2 (b.open_ * f), high := round2 (b.high * f),
             low := round2 (b.low * f), close := round2 (b.close * f) }

/-- Modelled from the spec (§4.3, mode `back`): mirror computation, scaling
bars on or after each event's ex-date by the inverse factor relative to the
pre-event baseline.  `volume`/`money` are never modified. -/
def adjustBarBack (bars : List Bar) (events : List DividendEvent)
    (b : Bar) : Bar :=
  let qs := events.filter (fun e =>
    decide (e.ex_date ≤ b.date ∧ (preclose bars e.ex_date).isSome))
  if qs.isEmpty then b
  else
    let f := qs.foldr (fun e acc => eventFactor bars e * acc) 1
    { b with open_ := round2 (b.open_ / f), high := round2 (b.high / f),
             low := round2 (b.low / f), close := round2 (b.close / f) }

/-- Adjustment modes, spec §4.3 (`fq` values `none`/`pre`/`post`). -/
inductive FqMode
  | none
  | front
  | back
  deriving Repr, DecidableEq

/-- Modelled from the spec (§4.3): the adjustment engine
`adjust(bars, events, mode, reference_date)`. -/
def adjust (bars : List Bar) (events : List DividendEvent) (mode : FqMode)
    (refDate : ℕ) : List Bar :=
  match mode with
  | .none => bars
  | .front => bars.map (adjustBarFront bars events refDate)
  | .back => bars.map (adjustBarBack bars events)

/-- Modelled from the spec (§4.2 "reference front-adjusted computation",
§8 "Front-adjustment formula"): the reference close series for a single cash
dividend in the vendor's per-1-share convention — every close dated strictly
before the ex-date becomes `round(raw_close * (P - d) / P, 2)` where `P` is
the preclose and `d` the per-share dividend; closes on or after the ex-date
stay raw.  This definition follows the spec's words and is compared against
the pipeline's output. -/
def referenceFrontCloses (bars : List Bar) (exDate : ℕ) (P d : ℚ) : List ℚ :=
  bars.map (fun b => if b.date < exDate then round2 (b.close * (P - d) / P) else b.close)

/-- Modelled from the spec (§4.1, §4.2 of the system overview): canonical
security codes map to vendor-native codes by exchange-suffix substitution
(`.XSHE` ↦ `.SZ`, `.XSHG` ↦ `.SH`); vendor-native codes pass through. -/
def toVendorCode (security : String) : String :=
  let cs := security.data
  let n := cs.length
  if cs.drop (n - 5) = ".XSHE".data then String.mk (cs.take (n - 5) ++ ".SZ".data)
  else if cs.drop (n - 5) = ".XSHG".data then String.mk (cs.take (n - 5) ++ ".SH".data)
  else security

/-- Modelled from the spec (§4.2, §6): the provider's state — a keyed local
cache of raw vendor bars, the vendor terminal (download source and raw
corporate-action records), the auto-download switch (disabled in live-trading
contexts), and the log of vendor download operations performed. -/
structure Provider where
  cache : List (String × List Bar)
  vendor : String → Option (List Bar)
  vendorDividends : String → List QmtDividend
  auto_download : Bool
  download_calls : List (String × String)

/-- Modelled from the spec (§4.2 `ensure_range`/`read`): serve the requested
key from cache; on a miss with auto-download enabled, perform one vendor
download for the `(security, period)` key and store it; with auto-download
disabled, perform no vendor I/O and serve an empty frame. -/
def ensureRange (p : Provider) (code : String) : Provider × List Bar :=
  match alookup code p.cache with
  | some bars => (p, bars)
  | Option.none =>
    if p.auto_download then
      let bars := (p.vendor code).getD []
      ({ p with cache := aupdate code bars p.cache,
                download_calls := p.download_calls ++ [(code, "1d")] }, bars)
    else (p, [])

/-- Raw bars of the requested security restricted to `[startD, endD]`. -/
def servedRange (p : Provider) (security : String) (startD endD : ℕ) : List Bar :=
  ((ensureRange p (toVendorCode security)).2).filter
    (fun b => decide (startD ≤ b.date ∧ b.date ≤ endD))

/-- Modelled from the spec (§4.5 `get_price`): resolve the canonical code to
the vendor code, ensure the range is available (§4.2), then adjust the bars in
range per §4.3 with the security's own normalized dividend events.  Returns
the provider state after any cache fill together with the adjusted frame. -/
def getPrice (p : Provider) (security : String) (startD endD : ℕ)
    (fq : FqMode) (refDate : ℕ) : Provider × List Bar :=
  let code := toVendorCode security
  let p2 := (ensureRange p code).1
  let bars := servedRange p security startD endD
  let events := (p.vendorDividends code).map normalizeQmtDividend
  (p2, adjust bars events fq refDate)

/-- Modelled from the spec (§4.5, §4.3): `get_split_dividend` returns the
security's own normalized dividend events inside the date range; it never
raises for absent data — an empty vendor record yields `[]` — and it consults
no other security's or vendor's data. -/
def get_split_dividend (p : Provider) (security : String)
    (startD endD : ℕ) : List DividendEvent :=
  ((p.vendorDividends (toVendorCode security)).filter
    (fun v => decide (startD ≤ v.time ∧ v.time ≤ endD))).map normalizeQmtDividend

/-! ## Temporal guard (spec §4.4) -/

/-- Modelled from the spec (§3, §4.4): the caller's position within a trading
day, supplied per call by the execution engine. -/
inductive SimulationPhase
  | before_open
  | intraday
  | after_close
  deriving Repr, DecidableEq

/-- A simulated instant: trading-day index plus minute within the day. -/
structure Instant where
  day : ℕ
  minute : ℕ
  deriving Repr, DecidableEq

/-- Strict order on instants (earlier trading day, or same day and earlier
minute). -/
def Instant.before (a b : Instant) : Prop :=
  a.day < b.day ∨ (a.day = b.day ∧ a.minute < b.minute)

instance (a b : Instant) : Decidable (Instant.before a b) := by
  unfold Instant.before; infer_instance

/-- Minute of the session open (09:30). -/
def sessionOpenMinute : ℕ := 570

/-- Minute of the session close (15:00). -/
def sessionCloseMinute : ℕ := 900

/-- Modelled from the spec (§4.4 intraday rule): whether a requested field is
finalized at the start of its period (a day's open) or only when the period
closes (a day's close). -/
inductive FieldKind
  | openField
  | closeField
  deriving Repr, DecidableEq

/-- The instant at which a daily field's value on day `d` becomes final. -/
def fieldAvail : FieldKind → ℕ → Instant
  | .openField, d => ⟨d, sessionOpenMinute⟩
  | .closeField, d => ⟨d, sessionCloseMinute⟩

/-- Modelled from the spec (§4.4): the temporal guard's validation rule over
`(phase, now, requested end boundary)` for daily-granularity queries —
`before_open` admits only end days strictly before `now`'s trading day;
`intraday` admits a field only once its finalization instant is strictly
earlier than `now`; `after_close` admits end days up to and including `now`'s
trading day. -/
def temporalGuard (phase : SimulationPhase) (now : Instant) (endDay : ℕ)
    (field : FieldKind) : Bool :=
  match phase with
  | .before_open => decide (endDay < now.day)
  | .intraday => decide (Instant.before (fieldAvail field endDay) now)
  | .after_close => decide (endDay ≤ now.day)

/-- Modelled from the spec (§7): the temporal-guard violation error surfaced
to the caller. -/
inductive FutureDataError
  | mk
  deriving Repr, DecidableEq

/-- Modelled from the spec (§4.4): the query entry points the guard rule is
applied to uniformly — daily bar queries, security-list queries,
index-membership queries, trading-day queries, extras queries, fundamentals
queries. -/
inductive QueryKind
  | price
  | securities
  | indexStocks
  | tradeDays
  | extras
  | fundamentals
  deriving Repr, DecidableEq

/-- A query result payload (a data frame), opaque to the guard. -/
structure Frame where
  rows : List (ℕ × ℚ)
  deriving Repr, DecidableEq

/-- Modelled from the spec (§4.4, last paragraph): every query entry point
applies the single phase/boundary rule — no special-casing by query type —
then returns its data frame. -/
def runQuery (_kind : QueryKind) (phase : SimulationPhase) (now : Instant)
    (endDay : ℕ) (field : FieldKind) (data : Frame) :
    Except FutureDataError Frame :=
  if temporalGuard phase now endDay field then .ok data else .error .mk

/-! ## Output table shapes (spec §4.5, §6) -/

/-- One row of the multi-security long form: `time, code` plus the requested
fields. -/
structure LongRow where
  time : ℕ
  code : String
  values : List (String × ℚ)
  deriving Repr, DecidableEq

/-- One row of the multi-security wide form: a two-level `(field, security)`
column labeling. -/
structure WideRow where
  time : ℕ
  cells : List ((String × String) × ℚ)
  deriving Repr, DecidableEq

/-- One row of the single-security shape: columns are the requested fields. -/
structure SingleRow where
  time : ℕ
  values : List (String × ℚ)
  deriving Repr, DecidableEq

/-- Modelled from the spec (§6): the three output table shapes of
`get_price`. -/
inductive PriceTable
  | single : List String → List SingleRow → PriceTable
  | long : List LongRow → PriceTable
  | wide : List WideRow → PriceTable
  deriving Repr, DecidableEq

/-- Number of rows of a price table. -/
def PriceTable.numRows : PriceTable → ℕ
  | .single _ rows => rows.length
  | .long rows => rows.length
  | .wide rows => rows.length

/-- Whether the table is in the single-security shape. -/
def PriceTable.isSingle : PriceTable → Bool
  | .single _ _ => true
  | _ => false

/-- Whether the table is in the long form. -/
def PriceTable.isLong : PriceTable → Bool
  | .long _ => true
  | _ => false

/-- Whether the table is in the wide form. -/
def PriceTable.isWide : PriceTable → Bool
  | .wide _ => true
  | _ => false

/-- The long-form rows of a table (empty for the other shapes). -/
def PriceTable.longRows : PriceTable → List LongRow
  | .long rows => rows
  | _ => []

/-- The column labels of a single-security table. -/
def PriceTable.singleCols : PriceTable → List String
  | .single cols _ => cols
  | _ => []

/-- One long-form row for security `s` at timestamp `t`. -/
def mkLongRow (fetch : String → ℕ → String → ℚ) (fields : List String)
    (s : String) (t : ℕ) : LongRow :=
  ⟨t, s, fields.map (fun f => (f, fetch s t f))⟩

/-- Modelled from the spec (§6 output table shapes, §4.5 `panel_shape`):
single-security requests always collapse to shape (a) regardless of
`panel_shape`; multi-security requests produce the long form (one row per
(security, timestamp) pair) when `panel` is false and the wide form (one row
per timestamp, two-level `(field, security)` columns) when `panel` is true.
`fetch` abstracts the underlying per-security bar values. -/
def getPriceTable (fetch : String → ℕ → String → ℚ) (secs : List String)
    (times : List ℕ) (fields : List String) (panel : Bool) : PriceTable :=
  match secs with
  | [s] => .single fields (times.map (fun t => ⟨t, fields.map (fun f => (f, fetch s t f))⟩))
  | _ =>
    if panel then
      .wide (times.map (fun t =>
        ⟨t, fields.flatMap (fun f => secs.map (fun s => ((f, s), fetch s t f)))⟩))
    else
      .long (secs.flatMap (fun s => times.map (mkLongRow fetch fields s)))

/-! ## Single-flight cache/download manager (spec §4.2, §5) -/

/-- A cache/download key: (security, period). -/
abbrev SFKey := String × String

/-- A caller's identity. -/
abbrev CallerId := ℕ

/-- Modelled from the spec (§4.2, §5): the cache/download manager's state —
the keyed cache, the set of keys with an in-flight download, the callers
awaiting each in-flight key, the results delivered to callers (caller, key,
data), and the log of underlying vendor downloads issued. -/
structure SFState where
  cache : List (SFKey × List Bar)
  inflight : List SFKey
  waiters : List (SFKey × CallerId)
  results : List (CallerId × SFKey × List Bar)
  downloads : List SFKey
  deriving Repr, DecidableEq

/-- The manager's initial state: nothing cached, nothing in flight. -/
def SFState.init : SFState := ⟨[], [], [], [], []⟩

/-- Modelled from the spec (§4.2 single-flight policy, §5): the manager's
atomic transitions.  A request for a cached key is served immediately; a
request for a missing key either issues the one underlying download (when no
download for that key is in flight) or joins the in-flight download; a
completing download fills the cache with the vendor's data and delivers that
same data to every waiting caller. -/
inductive SFStep (vendor : SFKey → List Bar) : SFState → SFState → Prop
  | hit (s : SFState) (c : CallerId) (k : SFKey) (d : List Bar)
      (hc : alookup k s.cache = some d) :
      SFStep vendor s { s with results := (c, k, d) :: s.results }
  | start (s : SFState) (c : CallerId) (k : SFKey)
      (hc : alookup k s.cache = Option.none) (hf : k ∉ s.inflight) :
      SFStep vendor s { s with inflight := k :: s.inflight,
                               waiters := (k, c) :: s.waiters,
                               downloads := k :: s.downloads }
  | join (s : SFState) (c : CallerId) (k : SFKey)
      (hc : alookup k s.cache = Option.none) (hf : k ∈ s.inflight) :
      SFStep vendor s { s with waiters := (k, c) :: s.waiters }
  | complete (s : SFState) (k : SFKey) (hf : k ∈ s.inflight) :
      SFStep vendor s
        { cache := aupdate k (vendor k) s.cache,
          inflight := s.inflight.erase k,
          waiters := s.waiters.filter (fun w => decide (w.1 ≠ k)),
          results := ((s.waiters.filter (fun w => decide (w.1 = k))).map
            (fun w => (w.2, k, vendor k))) ++ s.results,
          downloads := s.downloads }

/-- States reachable from the initial manager state under concurrent
callers. -/
inductive SFReach (vendor : SFKey → List Bar) : SFState → Prop
  | init : SFReach vendor SFState.init
  | step {s s' : SFState} : SFReach vendor s → SFStep vendor s s' →
      SFReach vendor s'

/-! ## Simulated broker (`bullet_trade/broker/simulator.py`) -/

/-- A position entry of `SimulatorBroker.positions` (`{"amount", "avg_cost"}`). -/
structure Position where
  amount : ℤ
  avg_cost : ℚ
  deriving Repr, DecidableEq

/-- An order record as stored by `_buy_sync`/`_sell_sync` (the Python dict's
`time` field, a wall-clock datetime, is embedded as a number supplied by the
caller). -/
structure Order where
  order_id : String
  security : String
  amount : ℤ
  price : ℚ
  side : String
  status : String
  time : ℕ
  deriving Repr, DecidableEq

/-- The mutable state of `SimulatorBroker` (dicts become association lists). -/
structure BrokerState where
  available_cash : ℚ
  positions : List (String × Position)
  orders : List (String × Order)
  trades : List String
  mock_prices : List (String × ℚ)
  deriving Repr, DecidableEq

/-- Errors `_buy_sync` can raise: the explicit `ValueError` for insufficient
cash, and the `ZeroDivisionError` Python raises at
`pos["avg_cost"] = total_cost / pos["amount"]` when the updated amount is 0. -/
inductive BuyError
  | valueError
  | zeroDivisionError
  deriving Repr, DecidableEq

/-- `trade_price = price if price is not None else self._mock_prices.get(security, 10.0)`
(simulator.py line 89). -/
def tradePrice (st : BrokerState) (security : String) (price : Option ℚ) : ℚ :=
  price.getD ((alookup security st.mock_prices).getD 10)

/-- `cost = amount * trade_price * 1.0003` (simulator.py line 91). -/
def buyCost (st : BrokerState) (security : String) (amount : ℤ)
    (price : Option ℚ) : ℚ :=
  (amount : ℚ) * tradePrice st security price * (10003/10000)

/-- The buy order record stored at `self.orders[order_id]`
(simulator.py lines 104-112). -/
def mkBuyOrder (order_id security : String) (amount : ℤ) (trade_price : ℚ)
    (now : ℕ) : Order :=
  ⟨order_id, security, amount, trade_price, "buy", "filled", now⟩

/-- Embedding of `SimulatorBroker._buy_sync` (simulator.py lines 87-114).
The randomly generated `order_id` and the wall clock `now` are parameters.
Returns the broker state after the call together with the outcome: the order
id on success, or the exception raised.  When the updated position amount is
0, Python has already mutated `positions` (line 100) before the division on
line 101 raises `ZeroDivisionError`, so that partial mutation is kept. -/
def buySync (st : BrokerState) (order_id security : String) (amount : ℤ)
    (price : Option ℚ) (now : ℕ) : BrokerState × Except BuyError String :=
  let trade_price := tradePrice st security price
  let cost := buyCost st security amount price
  if cost > st.available_cash then (st, .error .valueError)
  else
    let pos0 := (alookup security st.positions).getD ⟨0, 0⟩
    let total_cost := (pos0.amount : ℚ) * pos0.avg_cost + (amount : ℚ) * trade_price
    let newAmount := pos0.amount + amount
    if newAmount = 0 then
      ({ st with positions := aupdate security ⟨newAmount, pos0.avg_cost⟩ st.positions },
       .error .zeroDivisionError)
    else
      ({ st with
          positions := aupdate security ⟨newAmount, total_cost / (newAmount : ℚ)⟩ st.positions,
          available_cash := st.available_cash - cost,
          orders := aupdate order_id (mkBuyOrder order_id security amount trade_price now) st.orders },
       .ok order_id)

/-- The position looked up (or freshly created as `{"amount": 0, "avg_cost": 0}`)
by `_buy_sync` before the purchase (simulator.py lines 95-98). -/
def buyPos0 (st : BrokerState) (security : String) : Position :=
  (alookup security st.positions).getD ⟨0, 0⟩

/-- The position after a successful buy (simulator.py lines 99-101). -/
def buyNewPos (st : BrokerState) (security : String) (amount : ℤ)
    (price : Option ℚ) : Position :=
  ⟨(buyPos0 st security).amount + amount,
   (((buyPos0 st security).amount : ℚ) * (buyPos0 st security).avg_cost +
      (amount : ℚ) * tradePrice st security price) /
     (((buyPos0 st security).amount + amount : ℤ) : ℚ)⟩

/-! ## Concrete sample data (from `tests/data/providers/test_miniqmt_vs_jqdata.py`) -/

/-- The five sample bars of `_build_sample_frames` (dates 2025-05-20,
2025-06-11, 2025-06-12, 2025-06-13, 2025-06-30; closes 12.0, 12.5, 11.0,
11.5, 12.2; high = close + 0.2, low = close - 0.2, volume 1000,
money = close * 1000). -/
def sampleBars : List Bar :=
  [⟨20250520, 12, 61/5, 59/5, 12, 1000, 12000⟩,
   ⟨20250611, 25/2, 127/10, 123/10, 25/2, 1000, 12500⟩,
   ⟨20250612, 11, 56/5, 54/5, 11, 1000, 11000⟩,
   ⟨20250613, 23/2, 117/10, 113/10, 23/2, 1000, 11500⟩,
   ⟨20250630, 61/5, 62/5, 12, 61/5, 1000, 12200⟩]

/-- The sample QMT dividend record: 1.2 yuan per 1 share, ex-date
2025-06-12. -/
def sampleQmtDividend : QmtDividend := ⟨20250612, 6/5, 0, 0, 0⟩

/-- The sample dividend normalized to the per-10-shares base. -/
def sampleEvent : DividendEvent := normalizeQmtDividend sampleQmtDividend

/-- A provider over the sample vendor data, auto-download enabled, cold
cache. -/
def sampleProvider : Provider :=
  { cache := []
    vendor := fun c => if c = "000001.SZ" then some sampleBars else Option.none
    vendorDividends := fun c => if c = "000001.SZ" then [sampleQmtDividend] else []
    auto_download := true
    download_calls := [] }

/-- The sample provider in live mode: auto-download disabled. -/
def liveProvider : Provider :=
  { sampleProvider with auto_download := false }

/-- A provider whose security has an empty dividend record but another
security has events (for the no-fallback witness). -/
def emptyDividendProvider : Provider :=
  { sampleProvider with
      vendorDividends := fun c => if c = "600000.SH" then [sampleQmtDividend] else [] }

/-- The key used by the single-flight witness trace: `("000001.SZ", "1d")`. -/
def sfKey : SFKey := ("000001.SZ", "1d")

/-- A deterministic vendor for the single-flight witness. -/
def sfVendor : SFKey → List Bar := fun _ => sampleBars

/-- Witness trace, first state: caller 0 found `sfKey` uncached and not in
flight, so the manager issued the one download. -/
def sfS1 : SFState := ⟨[], [sfKey], [(sfKey, 0)], [], [sfKey]⟩

/-- Witness trace, second state: caller 1 joined the in-flight download. -/
def sfS2 : SFState := ⟨[], [sfKey], [(sfKey, 1), (sfKey, 0)], [], [sfKey]⟩

/-- Witness trace, final state: the download completed, the cache was filled
and both callers received the vendor data. -/
def sfFinal : SFState :=
  ⟨[(sfKey, sampleBars)], [], [], [(1, sfKey, sampleBars), (0, sfKey, sampleBars)], [sfKey]⟩

/-- The single-flight invariant of the cache/download manager: the download
log holds no key twice; a downloaded key is either still in flight or already
cached; cached data is exactly the vendor's data for its key; delivered
results carry exactly the vendor's data for their key. -/
def SFInv (vendor : SFKey → List Bar) (s : SFState) : Prop :=
  s.downloads.Nodup ∧
  (∀ k ∈ s.downloads, k ∈ s.inflight ∨ (alookup k s.cache).isSome) ∧
  (∀ kd ∈ s.cache, kd.2 = vendor kd.1) ∧
  (∀ r ∈ s.results, r.2.2 = vendor r.2.1)

/-- A fresh simulator state: `initial_cash` 1,000,000, no positions, orders,
trades or mock prices (`SimulatorBroker.__init__`). -/
def cexState : BrokerState := ⟨1000000, [], [], [], []⟩

/-! ## Helper lemmas -/

theorem alookup_aupdate_self {κ β : Type} [DecidableEq κ] (k : κ) (v : β)
    (l : List (κ × β)) : alookup k (aupdate k v l) = some v := by
  induction l with
  | nil => simp [alookup, aupdate]
  | cons hd tl ih =>
    obtain ⟨k', v'⟩ := hd
    by_cases h : k' = k
    · simp [alookup, aupdate, h]
    · simp [alookup, aupdate, h, ih]

theorem adjustBarFront_volume (bars : List Bar) (events : List DividendEvent)
    (refDate : ℕ) (b : Bar) :
    (adjustBarFront bars events refDate b).volume = b.volume := by
  unfold adjustBarFront
  dsimp only
  split <;> rfl

theorem adjustBarFront_money (bars : List Bar) (events : List DividendEvent)
    (refDate : ℕ) (b : Bar) :
    (adjustBarFront bars events refDate b).money = b.money := by
  unfold adjustBarFront
  dsimp only
  split <;> rfl

theorem adjustBarBack_volume (bars : List Bar) (events : List DividendEvent)
    (b : Bar) : (adjustBarBack bars events b).volume = b.volume := by
  unfold adjustBarBack
  dsimp only
  split <;> rfl

theorem adjustBarBack_money (bars : List Bar) (events : List DividendEvent)
    (b : Bar) : (adjustBarBack bars events b).money = b.money := by
  unfold adjustBarBack
  dsimp only
  split <;> rfl

/-- Characterization of single-event front adjustment: with one qualifying
dividend event (ex-date within the reference window, preclose `P`), every bar
strictly before the ex-date has its price fields scaled by `(P - d)/P` and
rounded to 2 decimals, every other bar is untouched. -/
theorem adjust_front_single (bars : List Bar) (ev : DividendEvent)
    (refDate : ℕ) (P : ℚ)
    (href : ev.ex_date ≤ refDate) (hpre : preclose bars ev.ex_date = some P) :
    adjust bars [ev] FqMode.front refDate
      = bars.map (fun b =>
          if b.date < ev.ex_date then
            { b with open_ := round2 (b.open_ * (P - cashPerShare ev) / P),
                     high := round2 (b.high * (P - cashPerShare ev) / P),
                     low := round2 (b.low * (P - cashPerShare ev) / P),
                     close := round2 (b.close * (P - cashPerShare ev) / P) }
          else b) := by
  show bars.map (adjustBarFront bars [ev] refDate) = _
  congr 1
  funext b
  by_cases h : b.date < ev.ex_date
  · have hq : frontQualifies bars refDate b.date ev = true := by
      simp [frontQualifies, href, h, hpre]
    simp only [adjustBarFront, List.filter, hq, List.isEmpty_cons, eventFactor,
      hpre, List.foldr, mul_one, if_pos h]
    simp [mul_div_assoc]
  · have hq : frontQualifies bars refDate b.date ev = false := by
      simp [frontQualifies, h]
    simp only [adjustBarFront, List.filter, hq, List.isEmpty_nil, if_pos,
      if_neg h]

theorem cashPerShare_normalize (v : QmtDividend) :
    cashPerShare (normalizeQmtDividend v) = v.interest := by
  simp only [cashPerShare, normalizeQmtDividend]
  exact mul_div_cancel_right₀ v.interest (by norm_num)

theorem zip_self_eq {α : Type} (l : List α) : ∀ q ∈ l.zip l, q.1 = q.2 := by
  induction l with
  | nil => simp
  | cons a t ih =>
    intro q hq
    rcases List.mem_cons.mp hq with h | h
    · rw [h]
    · exact ih q h

/-! ## Claim theorems -/

/-- C1: front adjustment formula — for a security with exactly one
`DividendEvent` with ex-date `D`, preclose `P` (close of the trading day
immediately before `D`) and cash dividend `d` per share, the front-adjusted
(`fq='pre'`) series has, for every bar dated strictly before `D`,
`adjusted == round(raw * (P - d) / P, 2)` on each of open/high/low/close,
and every bar dated on or after `D` exactly equal to its raw bar
(volume and money untouched throughout). -/
theorem front_adjustment_formula (bars : List Bar) (ev : DividendEvent)
    (refDate : ℕ) (P : ℚ)
    (href : ev.ex_date ≤ refDate) (hpre : preclose bars ev.ex_date = some P) :
    adjust bars [ev] FqMode.front refDate
      = bars.map (fun b =>
          if b.date < ev.ex_date then
            { b with open_ := round2 (b.open_ * (P - cashPerShare ev) / P),
                     high := round2 (b.high * (P - cashPerShare ev) / P),
                     low := round2 (b.low * (P - cashPerShare ev) / P),
                     close := round2 (b.close * (P - cashPerShare ev) / P) }
          else b) :=
  adjust_front_single bars ev refDate P href hpre

/-- Witness for C1 at the repository's sample data (Ping An Bank: five bars,
one 1.2-per-share dividend with ex-date 2025-06-12, preclose 12.5): the two
pre-event closes 12.0 and 12.5 become 10.85 and 11.30, the bars on or after
the ex-date keep their raw closes 11, 11.5, 12.2. -/
theorem front_adjustment_formula_witness :
    sampleEvent.ex_date ≤ 20250612 ∧
    preclose sampleBars sampleEvent.ex_date = some (25/2) ∧
    adjust sampleBars [sampleEvent] FqMode.front 20250612
      = sampleBars.map (fun b =>
          if b.date < sampleEvent.ex_date then
            { b with open_ := round2 (b.open_ * (25/2 - cashPerShare sampleEvent) / (25/2)),
                     high := round2 (b.high * (25/2 - cashPerShare sampleEvent) / (25/2)),
                     low := round2 (b.low * (25/2 - cashPerShare sampleEvent) / (25/2)),
                     close := round2 (b.close * (25/2 - cashPerShare sampleEvent) / (25/2)) }
          else b) ∧
    (adjust sampleBars [sampleEvent] FqMode.front 20250612).map Bar.close
      = [217/20, 113/10, 11, 23/2, 61/5] := by
  have h1 : sampleEvent.ex_date ≤ 20250612 := by decide
  have h2 : preclose sampleBars sampleEvent.ex_date = some (25/2) := rfl
  have h3 := front_adjustment_formula sampleBars sampleEvent 20250612 (25/2) h1 h2
  refine ⟨h1, h2, h3, ?_⟩
  rw [h3]
  have hc : cashPerShare sampleEvent = 6/5 := by
    norm_num [cashPerShare, sampleEvent, normalizeQmtDividend, sampleQmtDividend]
  rw [hc]
  simp only [sampleBars, sampleEvent, normalizeQmtDividend, sampleQmtDividend,
    List.map]
  norm_num [round2, roundHalfEven, round_eq, Int.fract]

/-- C2: cross-vendor consistency — for the same underlying security and date
range, with the dividend supplied in the vendor's native per-1-share
convention (`interest`), the front-adjusted closes produced by `get_price`
equal the reference computation exactly (hence agree within `1e-6`) after the
per-share-to-fixed-base rescaling of the normalizer, and the result obtained
through the other vendor's code convention for the same security
(`000001.XSHE` vs `000001.SZ`) is identical. -/
theorem cross_vendor_consistency
    (p : Provider) (jq qmt : String) (startD endD refDate : ℕ)
    (v : QmtDividend) (P : ℚ)
    (hcode : toVendorCode jq = toVendorCode qmt)
    (hdiv : p.vendorDividends (toVendorCode jq) = [v])
    (href : v.time ≤ refDate)
    (hpre : preclose (servedRange p jq startD endD) v.time = some P) :
    ((getPrice p jq startD endD FqMode.front refDate).2.map Bar.close
        = referenceFrontCloses (servedRange p jq startD endD) v.time P v.interest) ∧
    (∀ q ∈ ((getPrice p jq startD endD FqMode.front refDate).2.map Bar.close).zip
        (referenceFrontCloses (servedRange p jq startD endD) v.time P v.interest),
      |q.1 - q.2| ≤ 1/1000000) ∧
    (getPrice p jq startD endD FqMode.front refDate).2
      = (getPrice p qmt startD endD FqMode.front refDate).2 := by
  have hadj : (getPrice p jq startD endD FqMode.front refDate).2
      = adjust (servedRange p jq startD endD) [normalizeQmtDividend v]
          FqMode.front refDate := by
    simp [getPrice, hdiv]
  have hchar := adjust_front_single (servedRange p jq startD endD)
    (normalizeQmtDividend v) refDate P href hpre
  rw [show (normalizeQmtDividend v).ex_date = v.time from rfl,
    cashPerShare_normalize] at hchar
  have hcls : (getPrice p jq startD endD FqMode.front refDate).2.map Bar.close
      = referenceFrontCloses (servedRange p jq startD endD) v.time P v.interest := by
    rw [hadj, hchar, List.map_map, referenceFrontCloses]
    apply List.map_congr_left
    intro b _
    by_cases h : b.date < v.time
    · simp [Function.comp, if_pos h]
    · simp [Function.comp, if_neg h]
  refine ⟨hcls, ?_, ?_⟩
  · rw [hcls]
    intro q hq
    rw [zip_self_eq _ q hq]
    simp
  · simp [getPrice, servedRange, hcode]

/-- Witness for C2 at the repository's sample data: requesting
`000001.XSHE` and `000001.SZ` over 2025-05-20..2025-06-30 from the sample
vendor (dividend 1.2 per 1 share) yields identical front-adjusted frames,
whose closes equal the reference series `[10.85, 11.30, 11, 11.5, 12.2]`. -/
theorem cross_vendor_consistency_witness :
    toVendorCode "000001.XSHE" = toVendorCode "000001.SZ" ∧
    sampleProvider.vendorDividends (toVendorCode "000001.XSHE") = [sampleQmtDividend] ∧
    sampleQmtDividend.time ≤ 20250612 ∧
    preclose (servedRange sampleProvider "000001.XSHE" 20250520 20250630) sampleQmtDividend.time
      = some (25/2) ∧
    ((getPrice sampleProvider "000001.XSHE" 20250520 20250630 FqMode.front 20250612).2.map Bar.close
        = referenceFrontCloses (servedRange sampleProvider "000001.XSHE" 20250520 20250630)
            sampleQmtDividend.time (25/2) sampleQmtDividend.interest) ∧
    ((getPrice sampleProvider "000001.XSHE" 20250520 20250630 FqMode.front 20250612).2
        = (getPrice sampleProvider "000001.SZ" 20250520 20250630 FqMode.front 20250612).2) ∧
    referenceFrontCloses (servedRange sampleProvider "000001.XSHE" 20250520 20250630)
        sampleQmtDividend.time (25/2) sampleQmtDividend.interest
      = [217/20, 113/10, 11, 23/2, 61/5] := by
  have h1 : toVendorCode "000001.XSHE" = toVendorCode "000001.SZ" := rfl
  have h2 : sampleProvider.vendorDividends (toVendorCode "000001.XSHE")
      = [sampleQmtDividend] := rfl
  have h3 : sampleQmtDividend.time ≤ 20250612 := by decide
  have hserved : servedRange sampleProvider "000001.XSHE" 20250520 20250630
      = sampleBars := rfl
  have h4 : preclose (servedRange sampleProvider "000001.XSHE" 20250520 20250630)
      sampleQmtDividend.time = some (25/2) := rfl
  have main := cross_vendor_consistency sampleProvider "000001.XSHE" "000001.SZ"
    20250520 20250630 20250612 sampleQmtDividend (25/2) h1 h2 h3 h4
  refine ⟨h1, h2, h3, h4, main.1, main.2.2, ?_⟩
  rw [hserved]
  have hi : sampleQmtDividend.interest = 6/5 := rfl
  have ht : sampleQmtDividend.time = 20250612 := rfl
  rw [hi, ht, referenceFrontCloses]
  simp only [sampleBars, List.map]
  norm_num [round2, roundHalfEven, round_eq, Int.fract]

/-- C4: adjustment with mode `none` is the identity (`get_price` with
`fq='none'` returns the raw open/high/low/close/volume/money exactly), and
`volume` and `money` are never modified by corporate-action adjustment in any
mode. -/
theorem adjust_none_identity_volume_money
    (bars : List Bar) (events : List DividendEvent) (refDate : ℕ) :
    adjust bars events FqMode.none refDate = bars ∧
    ∀ mode : FqMode,
      (adjust bars events mode refDate).map Bar.volume = bars.map Bar.volume ∧
      (adjust bars events mode refDate).map Bar.money = bars.map Bar.money := by
  refine ⟨rfl, fun mode => ?_⟩
  cases mode with
  | none => exact ⟨rfl, rfl⟩
  | front =>
    constructor <;>
      simp [adjust, List.map_map, Function.comp, adjustBarFront_volume,
        adjustBarFront_money]
  | back =>
    constructor <;>
      simp [adjust, List.map_map, Function.comp, adjustBarBack_volume,
        adjustBarBack_money]

/-- C3: temporal guard, `before_open` phase — every query whose requested end
boundary resolves to a trading day on or after the simulated instant's own
trading day yields `FutureDataError`, uniformly across all query entry points
(daily bar, security-list, index-membership, trading-day, extras,
fundamentals queries — the `kind` argument is universally quantified and the
guard never inspects it), while the same query with an end boundary strictly
before now's trading day succeeds. -/
theorem before_open_guard_uniform (kind : QueryKind) (now : Instant)
    (endDay : ℕ) (field : FieldKind) (data : Frame) :
    (now.day ≤ endDay →
      runQuery kind SimulationPhase.before_open now endDay field data
        = Except.error FutureDataError.mk) ∧
    (endDay < now.day →
      runQuery kind SimulationPhase.before_open now endDay field data
        = Except.ok data) := by
  constructor
  · intro h
    have hn : ¬ endDay < now.day := by omega
    simp [runQuery, temporalGuard, hn]
  · intro h
    simp [runQuery, temporalGuard, h]

/-- Witness for C3: in `before_open` on trading day 10 (09:00), a daily close
query ending on day 10 raises, the same query ending on day 9 succeeds; the
same holds for a fundamentals query. -/
theorem before_open_guard_uniform_witness :
    runQuery QueryKind.price SimulationPhase.before_open ⟨10, 540⟩ 10
        FieldKind.closeField ⟨[]⟩ = Except.error FutureDataError.mk ∧
    runQuery QueryKind.price SimulationPhase.before_open ⟨10, 540⟩ 9
        FieldKind.closeField ⟨[]⟩ = Except.ok ⟨[]⟩ ∧
    runQuery QueryKind.fundamentals SimulationPhase.before_open ⟨10, 540⟩ 10
        FieldKind.closeField ⟨[]⟩ = Except.error FutureDataError.mk ∧
    runQuery QueryKind.fundamentals SimulationPhase.before_open ⟨10, 540⟩ 9
        FieldKind.closeField ⟨[]⟩ = Except.ok ⟨[]⟩ :=
  ⟨(before_open_guard_uniform QueryKind.price ⟨10, 540⟩ 10 FieldKind.closeField ⟨[]⟩).1
      (by norm_num),
   (before_open_guard_uniform QueryKind.price ⟨10, 540⟩ 9 FieldKind.closeField ⟨[]⟩).2
      (by norm_num),
   (before_open_guard_uniform QueryKind.fundamentals ⟨10, 540⟩ 10 FieldKind.closeField ⟨[]⟩).1
      (by norm_num),
   (before_open_guard_uniform QueryKind.fundamentals ⟨10, 540⟩ 9 FieldKind.closeField ⟨[]⟩).2
      (by norm_num)⟩

/-- C7: temporal guard, `intraday` phase — a daily-granularity query for the
`close` field (finalized only when the period closes) with end boundary on or
after the current simulated instant's day raises `FutureDataError`, while the
same query for the `open` field (finalized at the period's start) succeeds
and returns the data frame. -/
theorem intraday_close_open_guard (now : Instant) (endDay : ℕ) (data : Frame)
    (hopen : sessionOpenMinute < now.minute)
    (hclose : now.minute < sessionCloseMinute)
    (hend : now.day ≤ endDay) :
    runQuery QueryKind.price SimulationPhase.intraday now endDay
        FieldKind.closeField data = Except.error FutureDataError.mk ∧
    (endDay = now.day →
      runQuery QueryKind.price SimulationPhase.intraday now endDay
          FieldKind.openField data = Except.ok data) := by
  constructor
  · have hn : ¬ Instant.before (fieldAvail FieldKind.closeField endDay) now := by
      simp only [fieldAvail, Instant.before, not_or, not_and]
      constructor
      · simp only [not_lt]; exact hend
      · intro _; omega
    simp [runQuery, temporalGuard, hn]
  · intro heq
    have hy : Instant.before (fieldAvail FieldKind.openField endDay) now := by
      simp only [fieldAvail, Instant.before]
      exact Or.inr ⟨heq, hopen⟩
    simp [runQuery, temporalGuard, hy]

/-- Witness for C7: intraday at 10:00 on trading day 10 (session 09:30-15:00),
a daily `close` query ending at day 10 raises while the `open` query ending at
day 10 returns the frame. -/
theorem intraday_close_open_guard_witness :
    sessionOpenMinute < 600 ∧ 600 < sessionCloseMinute ∧
    runQuery QueryKind.price SimulationPhase.intraday ⟨10, 600⟩ 10
        FieldKind.closeField ⟨[(10, 11)]⟩ = Except.error FutureDataError.mk ∧
    runQuery QueryKind.price SimulationPhase.intraday ⟨10, 600⟩ 10
        FieldKind.openField ⟨[(10, 11)]⟩ = Except.ok ⟨[(10, 11)]⟩ := by
  have h := intraday_close_open_guard ⟨10, 600⟩ 10 ⟨[(10, 11)]⟩
    (by norm_num [sessionOpenMinute]) (by norm_num [sessionCloseMinute]) (by norm_num)
  exact ⟨by norm_num [sessionOpenMinute], by norm_num [sessionCloseMinute],
    h.1, h.2 rfl⟩

/-- C5: no cross-provider fallback for event queries — for every security
whose own dividend/split event data is absent or empty, `get_split_dividend`
over any date range returns `[]` (it is a total function, so it never raises),
and every event it ever returns comes from the requested security's own
vendor record, never from another security or vendor. -/
theorem get_split_dividend_no_cross_provider_fallback
    (p : Provider) (security : String) (startD endD : ℕ) :
    (p.vendorDividends (toVendorCode security) = [] →
      get_split_dividend p security startD endD = []) ∧
    ∀ e ∈ get_split_dividend p security startD endD,
      e ∈ (p.vendorDividends (toVendorCode security)).map normalizeQmtDividend := by
  constructor
  · intro h
    simp [get_split_dividend, h]
  · intro e he
    simp only [get_split_dividend, List.mem_map] at he ⊢
    obtain ⟨v, hv, rfl⟩ := he
    exact ⟨v, List.mem_of_mem_filter hv, rfl⟩

/-- Witness for C5: a provider whose `000001.SZ` record is empty (while a
different security `600000.SH` does have events) returns `[]` for
`000001.XSHE` instead of raising or substituting the other security's
events. -/
theorem get_split_dividend_no_fallback_witness :
    emptyDividendProvider.vendorDividends (toVendorCode "000001.XSHE") = [] ∧
    emptyDividendProvider.vendorDividends "600000.SH" = [sampleQmtDividend] ∧
    get_split_dividend emptyDividendProvider "000001.XSHE" 20250520 20250630 = [] :=
  ⟨rfl, rfl,
   (get_split_dividend_no_cross_provider_fallback emptyDividendProvider
      "000001.XSHE" 20250520 20250630).1 rfl⟩

/-- C6: auto-download suppression — with auto-download disabled (live mode),
a `get_price` call on a cache miss performs zero vendor download operations
(the download log is unchanged) and returns the empty frame the cache holds,
without raising (`getPrice` is total). -/
theorem live_mode_disables_auto_download
    (p : Provider) (security : String) (startD endD refDate : ℕ) (fq : FqMode)
    (hauto : p.auto_download = false)
    (hmiss : alookup (toVendorCode security) p.cache = Option.none) :
    (getPrice p security startD endD fq refDate).1.download_calls
      = p.download_calls ∧
    (getPrice p security startD endD fq refDate).2 = [] := by
  have he : ensureRange p (toVendorCode security) = (p, []) := by
    simp [ensureRange, hmiss, hauto]
  constructor
  · simp [getPrice, he]
  · simp only [getPrice, servedRange, he, List.filter_nil]
    cases fq <;> simp [adjust]

/-- Witness for C6: the live-mode sample provider (auto-download off, cold
cache) answers a `000001.XSHE` query with an empty frame and an empty
download log. -/
theorem live_mode_disables_auto_download_witness :
    liveProvider.auto_download = false ∧
    alookup (toVendorCode "000001.XSHE") liveProvider.cache = Option.none ∧
    (getPrice liveProvider "000001.XSHE" 20250520 20250630 FqMode.front 20250612).1.download_calls
      = liveProvider.download_calls ∧
    (getPrice liveProvider "000001.XSHE" 20250520 20250630 FqMode.front 20250612).2 = [] := by
  have h := live_mode_disables_auto_download liveProvider "000001.XSHE"
    20250520 20250630 20250612 FqMode.front rfl rfl
  exact ⟨rfl, rfl, h.1, h.2⟩

theorem mkLongRow_code (fetch : String → ℕ → String → ℚ) (fields : List String)
    (s : String) (t : ℕ) : (mkLongRow fetch fields s t).code = s := rfl

theorem filter_code_map_rows (fetch : String → ℕ → String → ℚ)
    (fields : List String) (s c : String) (times : List ℕ) :
    ((times.map (mkLongRow fetch fields s)).filter
        (fun r => decide (r.code = c))).length
      = if s = c then times.length else 0 := by
  induction times with
  | nil => simp
  | cons t ts ih =>
    by_cases h : s = c
    · subst h
      simp [mkLongRow, List.filter_cons, ih]
    · simp [mkLongRow, List.filter_cons, h, ih]

theorem filter_code_flatMap_zero (fetch : String → ℕ → String → ℚ)
    (fields : List String) (times : List ℕ) (secs : List String) (c : String)
    (hc : c ∉ secs) :
    ((secs.flatMap (fun s => times.map (mkLongRow fetch fields s))).filter
        (fun r => decide (r.code = c))).length = 0 := by
  induction secs with
  | nil => simp
  | cons s rest ih =>
    have hs : ¬ s = c := fun h => hc (h ▸ List.mem_cons_self s rest)
    have hr : c ∉ rest := fun h => hc (List.mem_cons_of_mem _ h)
    simp only [List.flatMap_cons, List.filter_append, List.length_append,
      filter_code_map_rows, if_neg hs, ih hr]

theorem filter_code_flatMap (fetch : String → ℕ → String → ℚ)
    (fields : List String) (times : List ℕ) (secs : List String) (c : String)
    (hnd : secs.Nodup) (hc : c ∈ secs) :
    ((secs.flatMap (fun s => times.map (mkLongRow fetch fields s))).filter
        (fun r => decide (r.code = c))).length = times.length := by
  induction secs with
  | nil => cases hc
  | cons s rest ih =>
    rw [List.flatMap_cons, List.filter_append, List.length_append,
      filter_code_map_rows]
    rcases List.mem_cons.mp hc with heq | hc'
    · rw [if_pos heq.symm, filter_code_flatMap_zero fetch fields times rest c
        (by rw [heq]; exact (List.nodup_cons.mp hnd).1)]
      omega
    · have hs : ¬ s = c := fun h => (List.nodup_cons.mp hnd).1 (h ▸ hc')
      rw [if_neg hs, Nat.zero_add]
      exact ih (List.nodup_cons.mp hnd).2 hc'

theorem length_flatMap_const {α β : Type} (l : List α) (f : α → List β) (n : ℕ)
    (h : ∀ a ∈ l, (f a).length = n) : (l.flatMap f).length = l.length * n := by
  induction l with
  | nil => simp
  | cons a t ih =>
    rw [List.flatMap_cons, List.length_append, h a (List.mem_cons_self a t),
      ih (fun x hx => h x (List.mem_cons_of_mem _ hx)), List.length_cons,
      Nat.succ_mul, Nat.add_comm]

/-- C8: panel shape row counts — for a multi-security `get_price` request
over `n` securities and `k` timestamps, the long-form output (`panel=False`)
has exactly `n*k` rows carrying `time` and `code` plus exactly the requested
fields, with exactly `k` rows per security code; the wide-form output
(`panel=True`) has exactly `k` rows with two-level `(field, security)` column
labels; and every single-security request returns the simple shape (`k` rows,
columns = requested fields) regardless of the `panel_shape` argument. -/
theorem panel_shape_row_counts
    (fetch : String → ℕ → String → ℚ) (secs : List String) (times : List ℕ)
    (fields : List String)
    (hn : 2 ≤ secs.length) (hnd : secs.Nodup) :
    (getPriceTable fetch secs times fields false).isLong = true ∧
    (getPriceTable fetch secs times fields false).numRows
      = secs.length * times.length ∧
    (∀ c ∈ secs,
      ((getPriceTable fetch secs times fields false).longRows.filter
          (fun r => decide (r.code = c))).length = times.length) ∧
    (∀ r ∈ (getPriceTable fetch secs times fields false).longRows,
      r.values.map Prod.fst = fields) ∧
    (getPriceTable fetch secs times fields true).isWide = true ∧
    (getPriceTable fetch secs times fields true).numRows = times.length ∧
    (∀ s : String, ∀ panel : Bool,
      (getPriceTable fetch [s] times fields panel).isSingle = true ∧
      (getPriceTable fetch [s] times fields panel).numRows = times.length ∧
      (getPriceTable fetch [s] times fields panel).singleCols = fields) := by
  have hsingle : ∀ s : String, ∀ panel : Bool,
      (getPriceTable fetch [s] times fields panel).isSingle = true ∧
      (getPriceTable fetch [s] times fields panel).numRows = times.length ∧
      (getPriceTable fetch [s] times fields panel).singleCols = fields := by
    intro s panel
    refine ⟨rfl, ?_, rfl⟩
    simp [getPriceTable, PriceTable.numRows]
  match secs, hn, hnd with
  | a :: b :: rest, _, hnd =>
    have hlong : getPriceTable fetch (a :: b :: rest) times fields false
        = PriceTable.long ((a :: b :: rest).flatMap
            (fun s => times.map (mkLongRow fetch fields s))) := rfl
    have hwide : getPriceTable fetch (a :: b :: rest) times fields true
        = PriceTable.wide (times.map (fun t =>
            ⟨t, fields.flatMap (fun f =>
              (a :: b :: rest).map (fun s => ((f, s), fetch s t f)))⟩)) := rfl
    refine ⟨by rw [hlong]; rfl, ?_, ?_, ?_, by rw [hwide]; rfl, ?_, hsingle⟩
    · rw [hlong]
      show ((a :: b :: rest).flatMap
        (fun s => times.map (mkLongRow fetch fields s))).length = _
      exact length_flatMap_const _ _ times.length
        (fun s _ => List.length_map _ _)
    · intro c hc
      rw [hlong]
      exact filter_code_flatMap fetch fields times (a :: b :: rest) c hnd hc
    · intro r hr
      rw [hlong] at hr
      simp only [PriceTable.longRows, List.mem_flatMap, List.mem_map] at hr
      obtain ⟨s, _, t, _, rfl⟩ := hr
      simp [mkLongRow, List.map_map, Function.comp_def]
    · rw [hwide]
      show (times.map _).length = times.length
      exact List.length_map _ _

/-- Witness for C8 at the test's parameters: 3 securities, 3 timestamps,
fields `close, money` — the long form has 9 rows with 3 per code, the wide
form has 3 rows, and a single-security request has 3 rows with columns
`close, money` under both panel settings. -/
theorem panel_shape_row_counts_witness :
    2 ≤ (["000001.XSHE", "000002.XSHE", "600000.XSHG"] : List String).length ∧
    (["000001.XSHE", "000002.XSHE", "600000.XSHG"] : List String).Nodup ∧
    (getPriceTable (fun _ _ _ => 0) ["000001.XSHE", "000002.XSHE", "600000.XSHG"]
        [1, 2, 3] ["close", "money"] false).numRows = 9 ∧
    (getPriceTable (fun _ _ _ => 0) ["000001.XSHE", "000002.XSHE", "600000.XSHG"]
        [1, 2, 3] ["close", "money"] true).numRows = 3 ∧
    (getPriceTable (fun _ _ _ => 0) ["000001.XSHE"] [1, 2, 3] ["close", "money"]
        true).isSingle = true ∧
    (getPriceTable (fun _ _ _ => 0) ["000001.XSHE"] [1, 2, 3] ["close", "money"]
        false).numRows = 3 := by
  have h := panel_shape_row_counts (fun _ _ _ => 0)
    ["000001.XSHE", "000002.XSHE", "600000.XSHG"] [1, 2, 3] ["close", "money"]
    (by norm_num) (by decide)
  refine ⟨by norm_num, by decide, ?_, ?_, ?_, ?_⟩
  · rw [h.2.1]; rfl
  · rw [h.2.2.2.2.2.1]; rfl
  · exact (h.2.2.2.2.2.2 "000001.XSHE" true).1
  · exact (h.2.2.2.2.2.2 "000001.XSHE" false).2.1

theorem alookup_mem {κ β : Type} [DecidableEq κ] {k : κ} {v : β}
    {l : List (κ × β)} (h : alookup k l = some v) : (k, v) ∈ l := by
  induction l with
  | nil => simp [alookup] at h
  | cons hd tl ih =>
    obtain ⟨k', v'⟩ := hd
    simp only [alookup] at h
    by_cases hk : k' = k
    · subst hk
      rw [if_pos rfl] at h
      obtain rfl : v' = v := Option.some.inj h
      exact List.mem_cons_self _ _
    · rw [if_neg hk] at h
      exact List.mem_cons_of_mem _ (ih h)

theorem mem_aupdate {κ β : Type} [DecidableEq κ] {k : κ} {v : β}
    {l : List (κ × β)} {x : κ × β} (h : x ∈ aupdate k v l) :
    x = (k, v) ∨ x ∈ l := by
  induction l with
  | nil => simp [aupdate] at h; exact Or.inl h
  | cons hd tl ih =>
    obtain ⟨k', v'⟩ := hd
    by_cases hk : k' = k
    · simp only [aupdate, if_pos hk] at h
      rcases List.mem_cons.mp h with h | h
      · exact Or.inl h
      · exact Or.inr (List.mem_cons_of_mem _ h)
    · simp only [aupdate, if_neg hk] at h
      rcases List.mem_cons.mp h with h | h
      · exact Or.inr (h ▸ List.mem_cons_self _ _)
      · rcases ih h with h | h
        · exact Or.inl h
        · exact Or.inr (List.mem_cons_of_mem _ h)

theorem alookup_aupdate_ne {κ β : Type} [DecidableEq κ] {k k' : κ}
    (hne : k' ≠ k) (v : β) (l : List (κ × β)) :
    alookup k' (aupdate k v l) = alookup k' l := by
  induction l with
  | nil => simp [alookup, aupdate, Ne.symm hne]
  | cons hd tl ih =>
    obtain ⟨k'', v''⟩ := hd
    by_cases h2 : k'' = k
    · subst h2
      simp only [aupdate, if_pos rfl, alookup]
      rw [if_neg (fun hh => hne hh.symm), if_neg (fun hh => hne hh.symm)]
    · simp only [aupdate, if_neg h2, alookup]
      by_cases h3 : k'' = k'
      · rw [if_pos h3, if_pos h3]
      · rw [if_neg h3, if_neg h3]
        exact ih

theorem alookup_aupdate_isSome {κ β : Type} [DecidableEq κ] (k k' : κ) (v : β)
    (l : List (κ × β)) (h : (alookup k' l).isSome) :
    (alookup k' (aupdate k v l)).isSome := by
  by_cases hkk : k' = k
  · subst hkk
    rw [alookup_aupdate_self]
    rfl
  · rw [alookup_aupdate_ne hkk]
    exact h

theorem count_le_one_of_nodup (l : List SFKey) (h : l.Nodup) (k : SFKey) :
    l.count k ≤ 1 := by
  induction l with
  | nil => simp
  | cons a t ih =>
    rw [List.count_cons]
    have hnd := List.nodup_cons.mp h
    by_cases hak : a = k
    · subst hak
      have hz : t.count a = 0 := List.count_eq_zero.mpr hnd.1
      simp [hz]
    · have hb : (a == k) = false := beq_eq_false_iff_ne.mpr hak
      simp only [hb, if_neg Bool.false_ne_true]
      simpa using ih hnd.2

theorem sf_inv_init (vendor : SFKey → List Bar) : SFInv vendor SFState.init := by
  refine ⟨List.nodup_nil, ?_, ?_, ?_⟩ <;> intro x hx <;> simp [SFState.init] at hx

theorem sf_inv_step {vendor : SFKey → List Bar} {s s' : SFState}
    (h : SFStep vendor s s') (hinv : SFInv vendor s) : SFInv vendor s' := by
  obtain ⟨hnd, hdl, hca, hre⟩ := hinv
  cases h with
  | hit c k d hc =>
    refine ⟨hnd, hdl, hca, ?_⟩
    intro r hr
    rcases List.mem_cons.mp hr with rfl | hr
    · exact hca (k, d) (alookup_mem hc)
    · exact hre r hr
  | start c k hc hf =>
    refine ⟨?_, ?_, hca, hre⟩
    · refine List.nodup_cons.mpr ⟨?_, hnd⟩
      intro hmem
      rcases hdl k hmem with h | h
      · exact hf h
      · rw [hc] at h
        simp at h
    · intro k' hk'
      rcases List.mem_cons.mp hk' with rfl | hk'
      · exact Or.inl (List.mem_cons_self _ _)
      · rcases hdl k' hk' with h | h
        · exact Or.inl (List.mem_cons_of_mem _ h)
        · exact Or.inr h
  | join c k hc hf =>
    exact ⟨hnd, hdl, hca, hre⟩
  | complete k hf =>
    refine ⟨hnd, ?_, ?_, ?_⟩
    · intro k' hk'
      rcases hdl k' hk' with h | h
      · by_cases hkk : k' = k
        · subst hkk
          exact Or.inr (by rw [alookup_aupdate_self]; rfl)
        · exact Or.inl ((List.mem_erase_of_ne hkk).mpr h)
      · exact Or.inr (alookup_aupdate_isSome k k' (vendor k) s.cache h)
    · intro kd hkd
      rcases mem_aupdate hkd with rfl | hkd
      · rfl
      · exact hca kd hkd
    · intro r hr
      rcases List.mem_append.mp hr with hr | hr
      · obtain ⟨w, _, rfl⟩ := List.mem_map.mp hr
        rfl
      · exact hre r hr

theorem sf_inv_reach {vendor : SFKey → List Bar} {s : SFState}
    (h : SFReach vendor s) : SFInv vendor s := by
  induction h with
  | init => exact sf_inv_init vendor
  | step _ hstep ih => exact sf_inv_step hstep ih

/-- C9: single-flight downloads — in every state the cache/download manager
can reach under concurrent callers, at most one underlying vendor download
has been issued per (security, period) key (the key's one download is issued,
by the `start` transition, exactly when a caller requests it while it is
neither cached nor in flight), and every result delivered for a key is the
vendor's data for that key, so all concurrent callers for the same key
receive the same data. -/
theorem single_flight_downloads (vendor : SFKey → List Bar) (s : SFState)
    (h : SFReach vendor s) :
    (∀ k : SFKey, s.downloads.count k ≤ 1) ∧
    (∀ r ∈ s.results, r.2.2 = vendor r.2.1) ∧
    (∀ r r', r ∈ s.results → r' ∈ s.results → r.2.1 = r'.2.1 →
      r.2.2 = r'.2.2) := by
  obtain ⟨hnd, _, _, hre⟩ := sf_inv_reach h
  refine ⟨count_le_one_of_nodup s.downloads hnd, hre, ?_⟩
  intro r r' hr hr' hk
  rw [hre r hr, hre r' hr', hk]

theorem sf_final_reachable : SFReach sfVendor sfFinal := by
  have h1 : SFStep sfVendor SFState.init sfS1 :=
    SFStep.start SFState.init 0 sfKey rfl (by simp [SFState.init])
  have h2 : SFStep sfVendor sfS1 sfS2 :=
    SFStep.join sfS1 1 sfKey rfl (by simp [sfS1])
  have h3 : SFStep sfVendor sfS2 sfFinal :=
    SFStep.complete sfS2 sfKey (by simp [sfS2])
  exact SFReach.step (SFReach.step (SFReach.step SFReach.init h1) h2) h3

/-- Witness for C9: on the concrete two-caller trace (start, join, complete)
for the key `("000001.SZ", "1d")`, exactly one download was issued and both
callers received the vendor's data. -/
theorem single_flight_downloads_witness :
    sfFinal.downloads = [sfKey] ∧
    sfFinal.downloads.count sfKey ≤ 1 ∧
    sfFinal.results.length = 2 ∧
    (∀ r ∈ sfFinal.results, r.2.2 = sfVendor r.2.1) := by
  have h := single_flight_downloads sfVendor sfFinal sf_final_reachable
  exact ⟨rfl, h.1 sfKey, rfl, h.2.1⟩

/-- C10 counterexample: buying 0 shares from the fresh simulator state
(cash 1,000,000, no positions) has cost `0 * 10 * 1.0003 = 0`, not exceeding
available cash, yet `_buy_sync` does not record a filled order: Python raises
`ZeroDivisionError` at `pos["avg_cost"] = total_cost / pos["amount"]`
(simulator.py line 101) after already mutating `positions` (line 100), so the
state is neither unchanged nor the success state, and the error is not the
claimed `ValueError`. -/
theorem buy_sync_zero_amount_counterexample :
    ¬ buyCost cexState "000001.XSHE" 0 Option.none > cexState.available_cash ∧
    buySync cexState "oid" "000001.XSHE" 0 Option.none 0
      = ({ cexState with positions := [("000001.XSHE", ⟨0, 0⟩)] },
         Except.error BuyError.zeroDivisionError) ∧
    (buySync cexState "oid" "000001.XSHE" 0 Option.none 0).1 ≠ cexState ∧
    (buySync cexState "oid" "000001.XSHE" 0 Option.none 0).2
      ≠ Except.error BuyError.valueError ∧
    (buySync cexState "oid" "000001.XSHE" 0 Option.none 0).1.orders = [] := by
  have hc : ¬ buyCost cexState "000001.XSHE" 0 Option.none
      > cexState.available_cash := by
    norm_num [buyCost, tradePrice, cexState, alookup]
  have hmain : buySync cexState "oid" "000001.XSHE" 0 Option.none 0
      = ({ cexState with positions := [("000001.XSHE", ⟨0, 0⟩)] },
         Except.error BuyError.zeroDivisionError) := by
    unfold buySync
    rw [if_neg hc]
    dsimp only
    norm_num [cexState, alookup, aupdate]
  refine ⟨hc, hmain, ?_, ?_, ?_⟩
  · rw [hmain]
    simp [cexState]
  · rw [hmain]
    simp
  · rw [hmain]
    rfl

/-- C10 (amended): simulator buy atomicity — for every buy of a positive
number of shares from a state whose pre-existing position (if any) in the
security has non-negative amount, if the total cost `amount * p * 1.0003`
exceeds `available_cash` then `_buy_sync` raises `ValueError` and the broker
state (cash, positions, orders, trades) is exactly as before; otherwise it
records a filled buy order under the new order id, increases the position by
`amount`, decreases `available_cash` by the cost, and leaves `trades`
untouched.  (The positivity restriction is forced by the counterexample:
a 0-share buy of an absent position divides by zero instead.) -/
theorem buy_sync_atomicity (st : BrokerState) (order_id security : String)
    (amount : ℤ) (price : Option ℚ) (now : ℕ)
    (hamt : 0 < amount)
    (hpos : 0 ≤ (buyPos0 st security).amount) :
    (buyCost st security amount price > st.available_cash →
      buySync st order_id security amount price now
        = (st, Except.error BuyError.valueError)) ∧
    (¬ buyCost st security amount price > st.available_cash →
      buySync st order_id security amount price now
        = ({ st with
              positions := aupdate security (buyNewPos st security amount price)
                st.positions,
              available_cash := st.available_cash - buyCost st security amount price,
              orders := aupdate order_id
                (mkBuyOrder order_id security amount (tradePrice st security price) now)
                st.orders },
           Except.ok order_id) ∧
      alookup security (buySync st order_id security amount price now).1.positions
        = some (buyNewPos st security amount price) ∧
      (buyNewPos st security amount price).amount
        = (buyPos0 st security).amount + amount ∧
      alookup order_id (buySync st order_id security amount price now).1.orders
        = some (mkBuyOrder order_id security amount (tradePrice st security price) now) ∧
      (mkBuyOrder order_id security amount (tradePrice st security price) now).status
        = "filled" ∧
      (buySync st order_id security amount price now).1.trades = st.trades) := by
  have hne : (buyPos0 st security).amount + amount ≠ 0 := by omega
  simp only [buyPos0] at hne
  constructor
  · intro hcost
    unfold buySync
    rw [if_pos hcost]
  · intro hcost
    have hmain : buySync st order_id security amount price now
        = ({ st with
              positions := aupdate security (buyNewPos st security amount price)
                st.positions,
              available_cash := st.available_cash - buyCost st security amount price,
              orders := aupdate order_id
                (mkBuyOrder order_id security amount (tradePrice st security price) now)
                st.orders },
           Except.ok order_id) := by
      unfold buySync
      rw [if_neg hcost]
      dsimp only
      rw [if_neg hne]
      simp only [buyNewPos, buyPos0, mkBuyOrder]
    refine ⟨hmain, ?_, rfl, ?_, rfl, ?_⟩
    · rw [hmain]
      exact alookup_aupdate_self security _ st.positions
    · rw [hmain]
      exact alookup_aupdate_self order_id _ st.orders
    · rw [hmain]

/-- Witness for the amended C10: buying 100 shares at price 10 from the fresh
state succeeds — the buy returns the order id, cash drops by the cost
1000.30, the position becomes 100 shares at average cost 10, and the filled
order is recorded. -/
theorem buy_sync_atomicity_witness :
    (0 : ℤ) < 100 ∧
    (0 : ℤ) ≤ (buyPos0 cexState "000001.XSHE").amount ∧
    (buySync cexState "oid1" "000001.XSHE" 100 (some 10) 7).2 = Except.ok "oid1" ∧
    (buySync cexState "oid1" "000001.XSHE" 100 (some 10) 7).1.available_cash
      = 1000000 - 10003/10 ∧
    alookup "000001.XSHE"
        (buySync cexState "oid1" "000001.XSHE" 100 (some 10) 7).1.positions
      = some ⟨100, 10⟩ ∧
    alookup "oid1" (buySync cexState "oid1" "000001.XSHE" 100 (some 10) 7).1.orders
      = some (mkBuyOrder "oid1" "000001.XSHE" 100 10 7) ∧
    (buySync cexState "oid1" "000001.XSHE" 100 (some 10) 7).1.trades = [] := by
  have h := buy_sync_atomicity cexState "oid1" "000001.XSHE" 100 (some 10) 7
    (by norm_num) (by norm_num [buyPos0, cexState, alookup])
  have hcost : ¬ buyCost cexState "000001.XSHE" 100 (some 10)
      > cexState.available_cash := by
    norm_num [buyCost, tradePrice, cexState]
  obtain ⟨hmain, hlook, hamt2, hord, hstat, htr⟩ := h.2 hcost
  refine ⟨by norm_num, by norm_num [buyPos0, cexState, alookup], ?_, ?_, ?_, ?_, ?_⟩
  · rw [hmain]
  · rw [hmain]
    norm_num [buyCost, tradePrice, cexState]
  · rw [hlook]
    norm_num [buyNewPos, buyPos0, cexState, alookup, tradePrice]
  · rw [hord]
    norm_num [tradePrice, cexState, alookup]
  · rw [htr]
    rfl

end BulletTrade
